import Mathlib

/-!
Shallow embedding of the `kartoffelmozart/sudokus` repository
(`configuration.py`, `sudoku.py`, `sudoku_solver.py`) and proofs about it.

Conventions of the embedding:
* Python (arbitrary-precision) integers become `Nat`; bitwise `&`, `|`,
  `x & ~y` become `Nat.land` (`&&&`), `Nat.lor` (`|||`), `Nat.ldiff`.
* The numpy `(size, size)` matrices (`placability_board`, `displayable`,
  the per-(cell, number) masks) become functions `Nat → Nat → Nat`; only
  indices below `size` are ever read by the embedded code, mirroring the
  fixed matrix extent.
* Python code that can raise an exception is embedded in `Option` /
  `Except` (`none` / `.error` = an exception escapes); code that can loop
  is given explicit fuel, with a dedicated out-of-fuel result so that
  exhaustion is never conflated with an ordinary outcome.
-/

/-- The fields of `Configuration` fixed by `validateParameters`
(`configuration.py`): the side length and the partition (block) side. -/
structure Config where
  size : Nat
  partition_size : Nat
deriving Repr, DecidableEq

/-- `configuration.py` line 42: `self.cell_free_bit = 1`. -/
def cellFreeBit : Nat := 1

/-- `configuration.py` line 32:
`self.number_to_bitmask = [1 << i for i in range(self.size + 1)]`;
entry `n` of that list is `1 <<< n` (only indices `0..size` exist and only
they are ever used). -/
def numberToBitmask (n : Nat) : Nat := 1 <<< n

/-- `sudoku.py` lines 30-31: starting from the zero matrix, OR every
`number_to_bitmask` entry into every cell; this is the per-cell initial
placability word. -/
def initMask (cfg : Config) : Nat :=
  (List.range (cfg.size + 1)).foldl (fun acc n => acc ||| numberToBitmask n) 0

/-- The support of the three slice assignments of `configuration.py`
lines 70-73: position `(i, j)` lies in row `y` (`matrix[y,:]`), in column
`x` (`matrix[:,x]`), or in the `partition_size`-sided block slice
`matrix[partition_y : partition_y + partition_size,
partition_x : partition_x + partition_size]` where
`partition_y = (y // partition_size) * partition_size` (line 68) and
likewise `partition_x`. -/
def ElimRegion (cfg : Config) (y x i j : Nat) : Prop :=
  i = y ∨ j = x ∨
    ((y / cfg.partition_size) * cfg.partition_size ≤ i ∧
      i < (y / cfg.partition_size) * cfg.partition_size + cfg.partition_size ∧
      (x / cfg.partition_size) * cfg.partition_size ≤ j ∧
      j < (x / cfg.partition_size) * cfg.partition_size + cfg.partition_size)

instance (cfg : Config) (y x i j : Nat) : Decidable (ElimRegion cfg y x i j) :=
  inferInstanceAs (Decidable (_ ∨ _ ∨ (_ ∧ _ ∧ _ ∧ _)))

/-- `configuration.py` lines 64-74: the entry at position `(i, j)` of the
matrix `availability_masks[y][x][number]`.  The three slice assignments
write `number_to_bitmask[number]` at every position of the elimination
region; every other entry keeps the value `0` of the empty matrix. -/
def availMaskEntry (cfg : Config) (y x number i j : Nat) : Nat :=
  if ElimRegion cfg y x i j then numberToBitmask number else 0

/-- `configuration.py` `validateParameters` (lines 99-121), for integer
arguments: `size > 10**2` fails, then a non-square `size` fails, then a
missing `partition_size` defaults to `√size`, then a `partition_size`
different from `√size` fails; otherwise the pair is returned.  (For
`size ≤ 100` the Python float `size**.5` is exact on perfect squares, so
`Nat.sqrt` renders both the squareness test and the default.) -/
def validateParameters (size : Nat) (partitionSize : Option Nat) :
    Except String (Nat × Nat) :=
  if size > 10 ^ 2 then
    .error "size can not be greater than 100"
  else if ¬ (Nat.sqrt size * Nat.sqrt size = size) then
    .error "size must be a square"
  else
    let p := partitionSize.getD (Nat.sqrt size)
    if p ≠ Nat.sqrt size then
      .error "partition_size must be the square root of size"
    else
      .ok (size, p)

/-- `Configuration.__init__` / `setParameters`: validation either raises
(no object is produced) or fixes the two scalar fields; the derived tables
(`number_to_bitmask`, `cell_free_bit`, `availability_masks`) are the total
functions above, determined by those fields. -/
def buildConfiguration (size : Nat) (partitionSize : Option Nat) :
    Except String Config :=
  (validateParameters size partitionSize).map (fun sp => ⟨sp.1, sp.2⟩)

/-- `configuration.py` line 124: `_9x9_configuration = Configuration(9)`. -/
def cfg9 : Config := ⟨9, 3⟩

/-- The mutable state of a `Sudoku` instance (`sudoku.py`): the per-cell
placability bitmask matrix, the human-readable value matrix, and the count
of placed numbers. -/
structure Sudoku where
  placability : Nat → Nat → Nat
  displayable : Nat → Nat → Nat
  placed_numbers : Nat

/-- `Sudoku.__init__`: zero placed numbers, every cell's placability word
filled with every bitmask (board empty), every displayed value `0`. -/
def Sudoku.init (cfg : Config) : Sudoku where
  placability := fun _ _ => initMask cfg
  displayable := fun _ _ => 0
  placed_numbers := 0

/-- `Sudoku.canPlace` (lines 37-40): both the number's bit and
`number_to_bitmask[0]` (the free bit) must be set in the cell's
placability word; Python's truthiness of the `and` of the two masked
words becomes the conjunction of the two nonzero tests. -/
def Sudoku.canPlace (cfg : Config) (s : Sudoku) (y x number : Nat) : Bool :=
  (s.placability y x &&& numberToBitmask number != 0) &&
    (s.placability y x &&& numberToBitmask 0 != 0)

/-- Python's `a & ~b` on (non-negative, arbitrary-precision) integers:
keep exactly the bits of `a` that are not in `b`.  Written as
`a ^^^ (a &&& b)` — bit-for-bit identical to and-not (see
`testBit_andNot`) while reducing in the kernel. -/
def andNot (a b : Nat) : Nat := a ^^^ (a &&& b)

/-- `Sudoku.place` (lines 43-60): clear the bits of
`availability_masks[y][x][number]` out of every cell's placability word,
additionally clear `cell_free_bit` at `(y, x)`, write the number into the
displayable matrix, and increment `placed_numbers`. -/
def Sudoku.place (cfg : Config) (s : Sudoku) (y x number : Nat) : Sudoku where
  placability := fun i j =>
    let cleared := andNot (s.placability i j) (availMaskEntry cfg y x number i j)
    if i = y ∧ j = x then andNot cleared cellFreeBit else cleared
  displayable := fun i j => if i = y ∧ j = x then number else s.displayable i j
  placed_numbers := s.placed_numbers + 1

/-- `Sudoku.unplace` (lines 63-84), exactly as written: the guard
`if not self.placability_board[y,x] & self.config.cell_free_bit: return`
returns (no mutation) precisely when the cell's free bit is clear, i.e.
when the cell is occupied; on a free cell control falls through to
`self.config.availability_matrices[y][x][number]`, an attribute that does
not exist (`configuration.py` defines `availability_masks`), so an
`AttributeError` escapes — embedded as `none`. -/
def Sudoku.unplace (cfg : Config) (s : Sudoku) (y x number : Nat) :
    Option Sudoku :=
  if s.placability y x &&& cellFreeBit = 0 then some s
  else none

/-- `Sudoku.copy` (lines 87-93): a fresh instance carrying copies of the
three state fields. -/
def Sudoku.copy (s : Sudoku) : Sudoku where
  placability := s.placability
  displayable := s.displayable
  placed_numbers := s.placed_numbers

/-- `Sudoku.isSolved` (lines 96-99): `placed_numbers == size ** 2`. -/
def Sudoku.isSolved (cfg : Config) (s : Sudoku) : Bool :=
  s.placed_numbers == cfg.size ^ 2

/-- A guess `(y, x, number)` as assembled in `considerEachCell`. -/
abbrev Guess := Nat × Nat × Nat

/-- The `SudokuSolver` instance attributes that `placeTrivials` /
`considerEachCell` read and write: the sudoku, `best_guesses` (a Python
list holding either the `None` placeholders of its initialisation or real
guess triples), and the `trivial_found` flag. -/
structure SolverState where
  sudoku : Sudoku
  best_guesses : List (Option Guess)
  trivial_found : Bool

/-- The list `numbers_this_cell_can_hold` built in `considerEachCell`
(lines 134-142): for `number in range(1, size + 1)`, append
`(y, x, number)` whenever `canPlace(y, x, number)`. -/
def candidates (cfg : Config) (s : Sudoku) (y x : Nat) : List Guess :=
  (List.range' 1 cfg.size).filterMap fun number =>
    if s.canPlace cfg y x number then some (y, x, number) else none

/-- All cells of the grid in row-major order. -/
def allCells (cfg : Config) : List (Nat × Nat) :=
  (List.range cfg.size).flatMap fun y => (List.range cfg.size).map fun x => (y, x)

/-- `sudoku_solver.py` line 131:
`zip(*np.where(placability_board & cell_free_bit))` — the row-major list
of cells whose free bit is set, computed once from the board state at
loop entry. -/
def freeCells (cfg : Config) (s : Sudoku) : List (Nat × Nat) :=
  (allCells cfg).filter fun c => s.placability c.1 c.2 &&& cellFreeBit != 0

/-- The body of `considerEachCell`'s cell loop (lines 131-166), run over
the snapshot list of free cells.  Per cell: an empty candidate list makes
the whole method return `False` (`none` here); a singleton is placed and
`trivial_found` set; a list of two or more replaces `best_guesses` exactly
when it is strictly shorter (`len > 1 and len < len(best_guesses)`). -/
def considerCells (cfg : Config) :
    List (Nat × Nat) → SolverState → Option SolverState
  | [], st => some st
  | c :: rest, st =>
    match candidates cfg st.sudoku c.1 c.2 with
    | [] => none
    | [g] =>
      considerCells cfg rest
        { st with sudoku := st.sudoku.place cfg g.1 g.2.1 g.2.2
                  trivial_found := true }
    | g1 :: g2 :: gs =>
      if (g1 :: g2 :: gs).length < st.best_guesses.length then
        considerCells cfg rest { st with best_guesses := (g1 :: g2 :: gs).map some }
      else
        considerCells cfg rest st

/-- `considerEachCell` (lines 122-166). -/
def considerEachCell (cfg : Config) (st : SolverState) : Option SolverState :=
  considerCells cfg (freeCells cfg st.sudoku) st

/-- The `while self.trivial_found` loop of `placeTrivials`
(lines 102-115): each iteration resets `trivial_found` and re-initialises
`best_guesses` to `[None] * size`, then runs `considerEachCell`; `False`
from it aborts the method (`some none`), otherwise the loop repeats while
`trivial_found` holds.  The loop needs at most one iteration per number it
places plus a final quiescent one, and at most `size * size` numbers fit
on the board, so `size * size + 1` iterations of fuel cover every run the
Python loop performs; `none` marks the (unreachable-with-that-fuel)
exhaustion. -/
def placeTrivialsLoop (cfg : Config) :
    Nat → SolverState → Option (Option SolverState)
  | 0, _ => none
  | fuel + 1, st =>
    match considerEachCell cfg
        { st with best_guesses := List.replicate cfg.size none
                  trivial_found := false } with
    | none => some none
    | some st1 =>
      if st1.trivial_found then placeTrivialsLoop cfg fuel st1
      else some (some st1)

/-- `placeTrivials` (lines 91-119): enters its loop with
`trivial_found = True`, so the body always runs at least once. -/
def placeTrivials (cfg : Config) (st : SolverState) :
    Option (Option SolverState) :=
  placeTrivialsLoop cfg (cfg.size * cfg.size + 1) st

/-- `makeGuess` (lines 169-173): copy the sudoku and `place(*guess)`.
When the guess is the `None` placeholder, `place(*None)` raises a
`TypeError` — embedded as `none`. -/
def makeGuess (cfg : Config) (s : Sudoku) : Option Guess → Option Sudoku
  | none => none
  | some g => some ((s.copy).place cfg g.1 g.2.1 g.2.2)

/-- The outcomes of `SudokuSolver.solve`: the tuple `(True, sudoku)`, the
tuple `(False, message)`, an escaping Python exception, or exhaustion of
the embedding's recursion fuel. -/
inductive SolveRes where
  | success (s : Sudoku)
  | failure (msg : String)
  | crash
  | outOfFuel

/-- The guess loop of `solve` (lines 76-88): try each entry of
`best_guesses` in order; a successful recursive solve returns
immediately, a failed one moves on to the next guess, an exception
propagates; when every guess has failed, return the final
`(False, 'the sudoku can not be solved')`. -/
def tryGuesses (cfg : Config) (recur : Sudoku → SolveRes) (s : Sudoku) :
    List (Option Guess) → SolveRes
  | [] => .failure "the sudoku can not be solved"
  | g :: rest =>
    match makeGuess cfg s g with
    | none => .crash
    | some s2 =>
      match recur s2 with
      | .success b => .success b
      | .failure _ => tryGuesses cfg recur s rest
      | .crash => .crash
      | .outOfFuel => .outOfFuel

/-- `solve` (lines 53-88): run `placeTrivials`; on `False` return
`(False, 'the sudoku could not be solved')`; if the sudoku `isSolved`
return `(True, sudoku)`; otherwise recurse over `best_guesses` through a
fresh `SudokuSolver` per guess.  Recursion depth is fuelled; every
recursive call places at least one more number, so any fuel above the
number of free cells is enough. -/
def solve (cfg : Config) : Nat → Sudoku → SolveRes
  | 0, _ => .outOfFuel
  | fuel + 1, sud =>
    match placeTrivials cfg ⟨sud, [], true⟩ with
    | none => .outOfFuel
    | some none => .failure "the sudoku could not be solved"
    | some (some st) =>
      if st.sudoku.isSolved cfg then .success st.sudoku
      else tryGuesses cfg (solve cfg fuel) st.sudoku st.best_guesses

/-- The exceptions `SudokuSolver.__init__` / `verifyInput` can raise on a
2-d array input: the `ValueError` for a wrong shape, and the
`AttributeError` raised on a conflicting clue, which carries the message
and the whole input material (lines 31, 43). -/
inductive BuildError where
  | badInput (msg : String)
  | invalidPuzzle (material : List (List Nat))
deriving Repr, DecidableEq

/-- The clue triples `(y, x, number)` visited by the nested
`for y,row in enumerate(...) / for x,number in enumerate(row)` loops of
`SudokuSolver.__init__` (lines 24-25), in order. -/
def clueList (g : List (List Nat)) : List Guess :=
  g.enum.flatMap fun yr => yr.2.enum.map fun xn => (yr.1, xn.1, xn.2)

/-- The clue-application loop of `SudokuSolver.__init__` (lines 24-31):
skip any entry outside the literal tuple `(1,...,9)`, place a placeable
clue, and raise the `AttributeError` carrying the input material on the
first clue whose `canPlace` is `False`. -/
def placeClues (cfg : Config) (material : List (List Nat)) :
    List Guess → Sudoku → Except BuildError Sudoku
  | [], s => .ok s
  | c :: rest, s =>
    if c.2.2 ∈ ([1, 2, 3, 4, 5, 6, 7, 8, 9] : List Nat) then
      if s.canPlace cfg c.1 c.2.1 c.2.2 then
        placeClues cfg material rest (s.place cfg c.1 c.2.1 c.2.2)
      else .error (.invalidPuzzle material)
    else placeClues cfg material rest s

/-- `verifyInput`'s shape check (lines 39-43): `np.shape` of the nested
list equals `(size, size)` exactly when there are `size` rows all of
length `size`.  (The subsequent `int(...)` coercion is the identity on
the integer entries modelled here.) -/
def verifyInputShape (cfg : Config) (g : List (List Nat)) : Bool :=
  g.length == cfg.size && g.all fun row => row.length == cfg.size

/-- `SudokuSolver.__init__` on a 2-d array of integers: verify the shape,
then apply the clues to a fresh `Sudoku` built from the class attribute
`config = _9x9_configuration`. -/
def buildSolver (g : List (List Nat)) : Except BuildError Sudoku :=
  if verifyInputShape cfg9 g then
    placeClues cfg9 g (clueList g) (Sudoku.init cfg9)
  else
    .error (.badInput "the shape of the input material is wrong")

/-! ### Bit-level lemmas -/

theorem testBit_andNot (a b k : Nat) :
    (andNot a b).testBit k = ((a.testBit k) && !(b.testBit k)) := by
  simp only [andNot, Nat.testBit_xor, Nat.testBit_land]
  cases a.testBit k <;> cases b.testBit k <;> rfl

theorem numberToBitmask_eq_two_pow (n : Nat) : numberToBitmask n = 2 ^ n := by
  simp [numberToBitmask, Nat.shiftLeft_eq]

theorem testBit_numberToBitmask (n k : Nat) :
    (numberToBitmask n).testBit k = decide (n = k) := by
  rw [numberToBitmask_eq_two_pow]; exact Nat.testBit_two_pow

theorem testBit_foldl_lor (l : List Nat) (acc k : Nat) :
    ((l.foldl (fun a n => a ||| numberToBitmask n) acc).testBit k)
      = (acc.testBit k || l.any fun n => decide (n = k)) := by
  induction l generalizing acc with
  | nil => simp
  | cons head tail ih =>
    simp [ih, Nat.testBit_lor, testBit_numberToBitmask, Bool.or_assoc]

theorem testBit_initMask (cfg : Config) (k : Nat) :
    (initMask cfg).testBit k = decide (k ≤ cfg.size) := by
  rw [initMask, testBit_foldl_lor, Nat.zero_testBit, Bool.false_or]
  rcases Nat.lt_or_ge k (cfg.size + 1) with hk | hk
  · rw [decide_eq_true (by omega : k ≤ cfg.size), List.any_eq_true]
    exact ⟨k, List.mem_range.mpr hk, by simp⟩
  · rw [decide_eq_false (by omega : ¬ k ≤ cfg.size), List.any_eq_false]
    intro n hn
    have := List.mem_range.mp hn
    simp
    omega

theorem land_numberToBitmask_ne_zero (a n : Nat) :
    a &&& numberToBitmask n ≠ 0 ↔ a.testBit n = true := by
  constructor
  · intro h
    by_contra hb
    apply h
    apply Nat.zero_of_testBit_eq_false
    intro i
    rw [Nat.testBit_land, testBit_numberToBitmask]
    rcases eq_or_ne n i with rfl | hne
    · simp only [Bool.not_eq_true] at hb
      simp [hb]
    · simp [hne]
  · intro h hz
    have h2 := congrArg (fun t => t.testBit n) hz
    simp only [Nat.testBit_land, testBit_numberToBitmask, Nat.zero_testBit] at h2
    simp [h] at h2

theorem canPlace_iff (cfg : Config) (s : Sudoku) (y x n : Nat) :
    s.canPlace cfg y x n = true ↔
      ((s.placability y x).testBit n = true ∧
        (s.placability y x).testBit 0 = true) := by
  unfold Sudoku.canPlace
  rw [Bool.and_eq_true, bne_iff_ne, bne_iff_ne,
    land_numberToBitmask_ne_zero, land_numberToBitmask_ne_zero]

theorem blockIdx_iff (i y p : Nat) (hp : 0 < p) :
    ((y / p) * p ≤ i ∧ i < (y / p) * p + p) ↔ i / p = y / p := by
  constructor
  · intro ⟨h1, h2⟩
    exact Nat.div_eq_of_lt_le h1 (by rw [Nat.succ_mul]; omega)
  · intro h
    have h1 : (i / p) * p + i % p = i := by
      rw [Nat.mul_comm]; exact Nat.div_add_mod i p
    have h2 : i % p < p := Nat.mod_lt i hp
    rw [← h]
    omega

theorem elimRegion_iff (cfg : Config) (hp : 0 < cfg.partition_size)
    (y x i j : Nat) :
    ElimRegion cfg y x i j ↔
      (i = y ∨ j = x ∨
        (i / cfg.partition_size = y / cfg.partition_size ∧
          j / cfg.partition_size = x / cfg.partition_size)) := by
  unfold ElimRegion
  rw [← blockIdx_iff i y cfg.partition_size hp,
    ← blockIdx_iff j x cfg.partition_size hp]
  tauto

theorem ElimRegion.symm {cfg : Config} (hp : 0 < cfg.partition_size)
    {y x i j : Nat} (h : ElimRegion cfg y x i j) : ElimRegion cfg i j y x := by
  rw [elimRegion_iff cfg hp] at h ⊢
  rcases h with h | h | ⟨h1, h2⟩
  · exact Or.inl h.symm
  · exact Or.inr (Or.inl h.symm)
  · exact Or.inr (Or.inr ⟨h1.symm, h2.symm⟩)

theorem elimRegion_row (cfg : Config) (y x j : Nat) : ElimRegion cfg y x y j :=
  Or.inl rfl

theorem elimRegion_col (cfg : Config) (y x i : Nat) : ElimRegion cfg y x i x :=
  Or.inr (Or.inl rfl)

/-! ### Effects of `place` on the board -/

theorem cellFreeBit_testBit (k : Nat) : cellFreeBit.testBit k = decide (0 = k) :=
  testBit_numberToBitmask 0 k

theorem place_placability_testBit (cfg : Config) (s : Sudoku) (y x n i j k : Nat) :
    ((s.place cfg y x n).placability i j).testBit k =
      ((s.placability i j).testBit k
        && !(decide (ElimRegion cfg y x i j) && decide (n = k))
        && !(decide (i = y ∧ j = x) && decide (k = 0))) := by
  have hregion : (availMaskEntry cfg y x n i j).testBit k
      = (decide (ElimRegion cfg y x i j) && decide (n = k)) := by
    unfold availMaskEntry
    split
    next hr => rw [testBit_numberToBitmask, decide_eq_true hr, Bool.true_and]
    next hr => rw [Nat.zero_testBit, decide_eq_false hr, Bool.false_and]
  have hmain : ((s.place cfg y x n).placability i j)
      = if i = y ∧ j = x
        then andNot (andNot (s.placability i j) (availMaskEntry cfg y x n i j))
          cellFreeBit
        else andNot (s.placability i j) (availMaskEntry cfg y x n i j) := rfl
  rw [hmain]
  by_cases ht : i = y ∧ j = x
  · rw [if_pos ht, testBit_andNot, testBit_andNot, hregion, cellFreeBit_testBit,
      decide_eq_true ht, Bool.true_and]
    congr 1
    congr 1
    rw [decide_eq_decide]
    exact eq_comm
  · rw [if_neg ht, testBit_andNot, hregion, decide_eq_false ht, Bool.false_and,
      Bool.not_false, Bool.and_true]

theorem place_testBit_mono {cfg : Config} {s : Sudoku} {y x n i j k : Nat}
    (h : ((s.place cfg y x n).placability i j).testBit k = true) :
    (s.placability i j).testBit k = true := by
  rw [place_placability_testBit, Bool.and_eq_true, Bool.and_eq_true] at h
  exact h.1.1

theorem place_clears_region {cfg : Config} {s : Sudoku} {y x n i j : Nat}
    (hr : ElimRegion cfg y x i j) :
    ((s.place cfg y x n).placability i j).testBit n = false := by
  rw [place_placability_testBit]
  simp [hr]

theorem place_clears_free (cfg : Config) (s : Sudoku) (y x n : Nat) :
    ((s.place cfg y x n).placability y x).testBit 0 = false := by
  rw [place_placability_testBit]
  simp

theorem place_preserves_testBit {cfg : Config} {s : Sudoku} {y x n i j k : Nat}
    (h1 : ¬ ElimRegion cfg y x i j ∨ n ≠ k) (h2 : ¬(i = y ∧ j = x) ∨ k ≠ 0) :
    ((s.place cfg y x n).placability i j).testBit k =
      (s.placability i j).testBit k := by
  rw [place_placability_testBit]
  rcases h1 with h1 | h1 <;> rcases h2 with h2 | h2 <;> simp [h1, h2]

theorem place_displayable (cfg : Config) (s : Sudoku) (y x n i j : Nat) :
    (s.place cfg y x n).displayable i j =
      if i = y ∧ j = x then n else s.displayable i j := rfl

theorem place_placed (cfg : Config) (s : Sudoku) (y x n : Nat) :
    (s.place cfg y x n).placed_numbers = s.placed_numbers + 1 := rfl

theorem canPlace_place_mono {cfg : Config} {s : Sudoku} {a b m y x n : Nat}
    (h : (s.place cfg a b m).canPlace cfg y x n = true) :
    s.canPlace cfg y x n = true := by
  rw [canPlace_iff] at h ⊢
  exact ⟨place_testBit_mono h.1, place_testBit_mono h.2⟩

/-! ### Facts about `candidates`, `allCells`, `freeCells` -/

theorem mem_candidates {cfg : Config} {s : Sudoku} {y x : Nat} {g : Guess}
    (h : g ∈ candidates cfg s y x) :
    g.1 = y ∧ g.2.1 = x ∧ 1 ≤ g.2.2 ∧ g.2.2 ≤ cfg.size ∧
      s.canPlace cfg y x g.2.2 = true := by
  unfold candidates at h
  rw [List.mem_filterMap] at h
  obtain ⟨n, hn, hf⟩ := h
  rw [List.mem_range'] at hn
  have hn2 : 1 ≤ n ∧ n ≤ cfg.size := by
    obtain ⟨i, hi, rfl⟩ := hn
    omega
  cases hcp : s.canPlace cfg y x n <;> rw [hcp] at hf
  · rw [if_neg (by simp)] at hf
    exact absurd hf (by simp)
  · rw [if_pos rfl] at hf
    obtain rfl := Option.some.inj hf
    exact ⟨rfl, rfl, hn2.1, hn2.2, hcp⟩

theorem mem_candidates3 {cfg : Config} {s : Sudoku} {y x gy gx gn : Nat}
    (h : (gy, gx, gn) ∈ candidates cfg s y x) :
    gy = y ∧ gx = x ∧ 1 ≤ gn ∧ gn ≤ cfg.size ∧ s.canPlace cfg y x gn = true :=
  mem_candidates h

theorem candidates_empty_place {cfg : Config} {s : Sudoku} {y x a b m : Nat}
    (h : candidates cfg s y x = []) :
    candidates cfg (s.place cfg a b m) y x = [] := by
  unfold candidates at h ⊢
  rw [List.filterMap_eq_nil_iff] at h ⊢
  intro n hn
  have h0 := h n hn
  cases hcp : (s.place cfg a b m).canPlace cfg y x n
  · simp [hcp]
  · have hold := canPlace_place_mono hcp
    rw [hold] at h0
    simp at h0

theorem mem_allCells {cfg : Config} {c : Nat × Nat} :
    c ∈ allCells cfg ↔ c.1 < cfg.size ∧ c.2 < cfg.size := by
  unfold allCells
  rw [List.mem_flatMap]
  constructor
  · rintro ⟨y, hy, hc⟩
    rw [List.mem_map] at hc
    obtain ⟨x, hx, rfl⟩ := hc
    exact ⟨List.mem_range.mp hy, List.mem_range.mp hx⟩
  · intro ⟨h1, h2⟩
    exact ⟨c.1, List.mem_range.mpr h1,
      List.mem_map.mpr ⟨c.2, List.mem_range.mpr h2, rfl⟩⟩

theorem allCells_nodup (cfg : Config) : (allCells cfg).Nodup := by
  unfold allCells
  rw [List.nodup_flatMap]
  constructor
  · intro y _
    exact (List.nodup_range _).map fun a b hab => by
      injection hab
  · have hpw := List.pairwise_lt_range cfg.size
    refine hpw.imp fun {a b} hab => ?_
    intro c hc1 hc2
    rw [List.mem_map] at hc1 hc2
    obtain ⟨x1, _, rfl⟩ := hc1
    obtain ⟨x2, _, he⟩ := hc2
    injection he with h1 h2
    omega

theorem mem_freeCells {cfg : Config} {s : Sudoku} {c : Nat × Nat} :
    c ∈ freeCells cfg s ↔
      (c.1 < cfg.size ∧ c.2 < cfg.size) ∧
        (s.placability c.1 c.2).testBit 0 = true := by
  unfold freeCells
  rw [List.mem_filter, mem_allCells]
  have : (s.placability c.1 c.2 &&& cellFreeBit != 0) = true ↔
      (s.placability c.1 c.2).testBit 0 = true := by
    rw [bne_iff_ne]
    exact land_numberToBitmask_ne_zero (s.placability c.1 c.2) 0
  rw [this]

/-! ### The board invariant -/

/-- The number of occupied cells of the grid. -/
def filledCount (cfg : Config) (s : Sudoku) : Nat :=
  ((allCells cfg).filter fun c => s.displayable c.1 c.2 != 0).length

theorem length_filter_flip_one {α : Type} (l : List α) (p q : α → Bool) (c : α)
    (hnd : l.Nodup) (hc : c ∈ l) (hpc : p c = false) (hqc : q c = true)
    (hagree : ∀ a ∈ l, a ≠ c → q a = p a) :
    (l.filter q).length = (l.filter p).length + 1 := by
  induction l with
  | nil => cases hc
  | cons hd tl ih =>
    rw [List.nodup_cons] at hnd
    rcases List.mem_cons.mp hc with rfl | hmem
    · have heq : List.filter q tl = List.filter p tl := by
        apply List.filter_congr
        intro a ha
        exact hagree a (List.mem_cons_of_mem _ ha) fun h => hnd.1 (h ▸ ha)
      rw [List.filter_cons, List.filter_cons, hpc, hqc, heq]
      simp
    · have hne : hd ≠ c := fun h => hnd.1 (h ▸ hmem)
      have hq : q hd = p hd := hagree hd (List.mem_cons_self hd tl) hne
      have htl := ih hnd.2 hmem fun a ha hne2 =>
        hagree a (List.mem_cons_of_mem _ ha) hne2
      rw [List.filter_cons, List.filter_cons, hq]
      cases p hd <;> simp [htl]

/-- The state invariant maintained by guarded `place` calls: displayed
values stay in range, the free bit tracks emptiness, the bit of every
placed value is cleared throughout its elimination region, no two
distinct cells of a shared region display the same value, and
`placed_numbers` counts the occupied cells. -/
structure BoardInv (cfg : Config) (s : Sudoku) : Prop where
  range : ∀ y x, y < cfg.size → x < cfg.size →
    s.displayable y x = 0 ∨ (1 ≤ s.displayable y x ∧ s.displayable y x ≤ cfg.size)
  free_iff : ∀ y x, y < cfg.size → x < cfg.size →
    ((s.placability y x).testBit 0 = true ↔ s.displayable y x = 0)
  cleared : ∀ y x i j, y < cfg.size → x < cfg.size → i < cfg.size → j < cfg.size →
    ElimRegion cfg y x i j → s.displayable y x ≠ 0 →
    (s.placability i j).testBit (s.displayable y x) = false
  distinct : ∀ y x i j, y < cfg.size → x < cfg.size → i < cfg.size → j < cfg.size →
    ElimRegion cfg y x i j → ((y, x) : Nat × Nat) ≠ (i, j) →
    s.displayable y x ≠ 0 → s.displayable y x ≠ s.displayable i j
  count : s.placed_numbers = filledCount cfg s

theorem BoardInv.init (cfg : Config) : BoardInv cfg (Sudoku.init cfg) where
  range := fun _ _ _ _ => Or.inl rfl
  free_iff := fun _ _ _ _ => by
    have h : (initMask cfg).testBit 0 = true := by
      rw [testBit_initMask]
      simp
    exact ⟨fun _ => rfl, fun _ => h⟩
  cleared := fun _ _ _ _ _ _ _ _ _ h => absurd rfl h
  distinct := fun _ _ _ _ _ _ _ _ _ _ h => absurd rfl h
  count := by
    simp [filledCount, Sudoku.init]

theorem BoardInv.place {cfg : Config} {s : Sudoku}
    (hp : 0 < cfg.partition_size) (inv : BoardInv cfg s) {y x n : Nat}
    (hy : y < cfg.size) (hx : x < cfg.size) (hn1 : 1 ≤ n) (hn2 : n ≤ cfg.size)
    (hcan : s.canPlace cfg y x n = true) :
    BoardInv cfg (s.place cfg y x n) := by
  have hbit := (canPlace_iff cfg s y x n).mp hcan
  have hdisp0 : s.displayable y x = 0 := (inv.free_iff y x hy hx).mp hbit.2
  constructor
  case range =>
    intro a b ha hb
    rw [place_displayable]
    by_cases ht : a = y ∧ b = x
    · rw [if_pos ht]
      exact Or.inr ⟨hn1, hn2⟩
    · rw [if_neg ht]
      exact inv.range a b ha hb
  case free_iff =>
    intro a b ha hb
    rw [place_displayable]
    by_cases ht : a = y ∧ b = x
    · obtain ⟨rfl, rfl⟩ := ht
      rw [if_pos ⟨rfl, rfl⟩, place_clears_free]
      constructor
      · intro h
        cases h
      · intro h
        omega
    · rw [if_neg ht, place_preserves_testBit (Or.inr (by omega)) (Or.inl ht)]
      exact inv.free_iff a b ha hb
  case cleared =>
    intro a b i j ha hb hi hj hreg hfill
    rw [place_displayable] at hfill ⊢
    by_cases ht : a = y ∧ b = x
    · obtain ⟨rfl, rfl⟩ := ht
      rw [if_pos ⟨rfl, rfl⟩]
      exact place_clears_region hreg
    · rw [if_neg ht] at hfill ⊢
      have hold := inv.cleared a b i j ha hb hi hj hreg hfill
      cases hnew : ((s.place cfg y x n).placability i j).testBit (s.displayable a b)
      · rfl
      · rw [place_testBit_mono hnew] at hold
        cases hold
  case distinct =>
    intro a b i j ha hb hi hj hreg hne hfill
    simp only [place_displayable] at hfill ⊢
    by_cases ht1 : a = y ∧ b = x <;> by_cases ht2 : i = y ∧ j = x
    · obtain ⟨rfl, rfl⟩ := ht1
      obtain ⟨h1, h2⟩ := ht2
      exact absurd (by rw [h1, h2]) hne
    · obtain ⟨rfl, rfl⟩ := ht1
      rw [if_pos ⟨rfl, rfl⟩, if_neg ht2]
      intro hcontra
      rcases eq_or_ne (s.displayable i j) 0 with hz | hz
      · omega
      · have hreg2 : ElimRegion cfg i j a b := hreg.symm hp
        have hcl := inv.cleared i j a b hi hj ha hb hreg2 hz
        rw [← hcontra, hbit.1] at hcl
        cases hcl
    · obtain ⟨rfl, rfl⟩ := ht2
      rw [if_neg ht1] at hfill ⊢
      rw [if_pos ⟨rfl, rfl⟩]
      intro hcontra
      have hcl := inv.cleared a b i j ha hb hi hj hreg hfill
      rw [hcontra, hbit.1] at hcl
      cases hcl
    · rw [if_neg ht1] at hfill ⊢
      rw [if_neg ht2]
      exact inv.distinct a b i j ha hb hi hj hreg hne hfill
  case count =>
    rw [place_placed, inv.count]
    unfold filledCount
    symm
    apply length_filter_flip_one _ _ _ ((y, x) : Nat × Nat) (allCells_nodup cfg)
      (mem_allCells.mpr ⟨hy, hx⟩)
    · rw [hdisp0]
      simp
    · rw [place_displayable, if_pos ⟨rfl, rfl⟩]
      simpa using by omega
    · intro a _ hne
      rw [place_displayable, if_neg]
      intro hcontra
      exact hne (Prod.ext hcontra.1 hcontra.2)

/-! ### Construction from input (`SudokuSolver.__init__`) -/

theorem mem_enum_bounds {α : Type} {l : List α} {p : Nat × α}
    (h : p ∈ l.enum) : p.1 < l.length ∧ p.2 ∈ l := by
  rw [List.mem_iff_getElem] at h
  obtain ⟨i, hi, he⟩ := h
  rw [List.getElem_enum] at he
  have hlen : i < l.length := by rwa [List.enum_length] at hi
  cases he
  exact ⟨hlen, List.getElem_mem hlen⟩

theorem enum_mem_of_lt {α : Type} {l : List α} {i : Nat} (hi : i < l.length) :
    (i, l[i]) ∈ l.enum := by
  have h2 : i < l.enum.length := by rwa [List.enum_length]
  have h3 := List.getElem_mem h2
  rwa [List.getElem_enum] at h3

theorem verifyInputShape_eq {cfg : Config} {g : List (List Nat)}
    (h : verifyInputShape cfg g = true) :
    g.length = cfg.size ∧ ∀ row ∈ g, row.length = cfg.size := by
  unfold verifyInputShape at h
  rw [Bool.and_eq_true] at h
  refine ⟨beq_iff_eq.mp h.1, fun row hrow => ?_⟩
  have h2 := List.all_eq_true.mp h.2 row hrow
  exact beq_iff_eq.mp h2

theorem mem_clueList_bounds {g : List (List Nat)} {c : Guess}
    (hshape : verifyInputShape cfg9 g = true) (hc : c ∈ clueList g) :
    c.1 < cfg9.size ∧ c.2.1 < cfg9.size := by
  obtain ⟨hlen, hall⟩ := verifyInputShape_eq hshape
  unfold clueList at hc
  rw [List.mem_flatMap] at hc
  obtain ⟨yr, hyr, hc2⟩ := hc
  rw [List.mem_map] at hc2
  obtain ⟨xn, hxn, rfl⟩ := hc2
  have h1 := mem_enum_bounds hyr
  have h2 := mem_enum_bounds hxn
  refine ⟨by rw [← hlen]; exact h1.1, ?_⟩
  rw [← hall yr.2 h1.2]
  exact h2.1

theorem mem_nine_range {n : Nat} (h : n ∈ ([1, 2, 3, 4, 5, 6, 7, 8, 9] : List Nat)) :
    1 ≤ n ∧ n ≤ 9 := by
  simp at h
  rcases h with h | h | h | h | h | h | h | h | h <;> omega

theorem placeClues_inv (g : List (List Nat)) (l : List Guess) (s s' : Sudoku)
    (hb : ∀ c ∈ l, c.1 < cfg9.size ∧ c.2.1 < cfg9.size)
    (inv : BoardInv cfg9 s) (h : placeClues cfg9 g l s = .ok s') :
    BoardInv cfg9 s' := by
  induction l generalizing s with
  | nil =>
    unfold placeClues at h
    cases h
    exact inv
  | cons c rest ih =>
    unfold placeClues at h
    by_cases hnine : c.2.2 ∈ ([1, 2, 3, 4, 5, 6, 7, 8, 9] : List Nat)
    · rw [if_pos hnine] at h
      cases hcp : s.canPlace cfg9 c.1 c.2.1 c.2.2 <;> rw [hcp] at h
      · rw [if_neg (by simp)] at h
        simp at h
      · rw [if_pos rfl] at h
        have hrange := mem_nine_range hnine
        have hc := hb c (List.mem_cons_self c rest)
        exact ih _ (fun a ha => hb a (List.mem_cons_of_mem _ ha))
          (inv.place (by decide) hc.1 hc.2 hrange.1 hrange.2 hcp) h
    · rw [if_neg hnine] at h
      exact ih _ (fun a ha => hb a (List.mem_cons_of_mem _ ha)) inv h

theorem buildSolver_inv {g : List (List Nat)} {s : Sudoku}
    (h : buildSolver g = .ok s) : BoardInv cfg9 s := by
  unfold buildSolver at h
  cases hsh : verifyInputShape cfg9 g <;> rw [hsh] at h
  · rw [if_neg (by simp)] at h
    simp at h
  · rw [if_pos rfl] at h
    exact placeClues_inv g (clueList g) _ s
      (fun c hc => mem_clueList_bounds hsh hc) (BoardInv.init cfg9) h

/-! ### The propagation pass -/

theorem considerCells_nil (cfg : Config) (st : SolverState) :
    considerCells cfg [] st = some st := rfl

theorem considerCells_cons_empty {cfg : Config} {c : Nat × Nat}
    {rest : List (Nat × Nat)} {st : SolverState}
    (h : candidates cfg st.sudoku c.1 c.2 = []) :
    considerCells cfg (c :: rest) st = none := by
  simp only [considerCells, h]

theorem considerCells_cons_single {cfg : Config} {c : Nat × Nat}
    {rest : List (Nat × Nat)} {st : SolverState} {g : Guess}
    (h : candidates cfg st.sudoku c.1 c.2 = [g]) :
    considerCells cfg (c :: rest) st =
      considerCells cfg rest
        { st with sudoku := st.sudoku.place cfg g.1 g.2.1 g.2.2
                  trivial_found := true } := by
  simp only [considerCells, h]

theorem considerCells_cons_many {cfg : Config} {c : Nat × Nat}
    {rest : List (Nat × Nat)} {st : SolverState} {g1 g2 : Guess} {gs : List Guess}
    (h : candidates cfg st.sudoku c.1 c.2 = g1 :: g2 :: gs) :
    considerCells cfg (c :: rest) st =
      if (g1 :: g2 :: gs).length < st.best_guesses.length then
        considerCells cfg rest { st with best_guesses := (g1 :: g2 :: gs).map some }
      else considerCells cfg rest st := by
  simp only [considerCells, h]

theorem freeCells_bounds {cfg : Config} {s : Sudoku} :
    ∀ c ∈ freeCells cfg s, c.1 < cfg.size ∧ c.2 < cfg.size :=
  fun _ hc => (mem_freeCells.mp hc).1

theorem considerCells_inv {cfg : Config} (hp : 0 < cfg.partition_size)
    (l : List (Nat × Nat)) (st st' : SolverState)
    (hb : ∀ c ∈ l, c.1 < cfg.size ∧ c.2 < cfg.size)
    (inv : BoardInv cfg st.sudoku)
    (h : considerCells cfg l st = some st') : BoardInv cfg st'.sudoku := by
  induction l generalizing st with
  | nil =>
    rw [considerCells_nil] at h
    cases h
    exact inv
  | cons c rest ih =>
    cases hcand : candidates cfg st.sudoku c.1 c.2 with
    | nil =>
      rw [considerCells_cons_empty hcand] at h
      simp at h
    | cons g gs =>
      cases gs with
      | nil =>
        rw [considerCells_cons_single hcand] at h
        obtain ⟨gy, gx, gn⟩ := g
        have hg := mem_candidates3 (hcand ▸ List.mem_cons_self (gy, gx, gn) [] :
          (gy, gx, gn) ∈ candidates cfg st.sudoku c.1 c.2)
        obtain ⟨h1, h2, h3, h4, h5⟩ := hg
        subst h1
        subst h2
        have hc := hb c (List.mem_cons_self c rest)
        refine ih _ (fun a ha => hb a (List.mem_cons_of_mem _ ha)) ?_ h
        exact inv.place hp hc.1 hc.2 h3 h4 h5
      | cons g2 gs2 =>
        rw [considerCells_cons_many hcand] at h
        by_cases hlen : (g :: g2 :: gs2).length < st.best_guesses.length
        · rw [if_pos hlen] at h
          exact ih { st with best_guesses := (g :: g2 :: gs2).map some }
            (fun a ha => hb a (List.mem_cons_of_mem _ ha)) inv h
        · rw [if_neg hlen] at h
          exact ih st (fun a ha => hb a (List.mem_cons_of_mem _ ha)) inv h

theorem considerCells_flag_mono {cfg : Config} (l : List (Nat × Nat))
    (st st' : SolverState) (h : considerCells cfg l st = some st')
    (hf : st.trivial_found = true) : st'.trivial_found = true := by
  induction l generalizing st with
  | nil =>
    rw [considerCells_nil] at h
    cases h
    exact hf
  | cons c rest ih =>
    cases hcand : candidates cfg st.sudoku c.1 c.2 with
    | nil =>
      rw [considerCells_cons_empty hcand] at h
      simp at h
    | cons g gs =>
      cases gs with
      | nil =>
        rw [considerCells_cons_single hcand] at h
        exact ih _ h rfl
      | cons g2 gs2 =>
        rw [considerCells_cons_many hcand] at h
        by_cases hlen : (g :: g2 :: gs2).length < st.best_guesses.length
        · rw [if_pos hlen] at h
          exact ih _ h hf
        · rw [if_neg hlen] at h
          exact ih _ h hf

/-- The well-formedness carried by `best_guesses`: every non-`None` entry
is a placeable in-range guess for the current board. -/
def GuessesOK (cfg : Config) (s : Sudoku) (bg : List (Option Guess)) : Prop :=
  ∀ g ∈ bg, ∀ y x n, g = some (y, x, n) →
    y < cfg.size ∧ x < cfg.size ∧ 1 ≤ n ∧ n ≤ cfg.size ∧
      s.canPlace cfg y x n = true

theorem considerCells_quiet {cfg : Config} (l : List (Nat × Nat))
    (st st' : SolverState) (h : considerCells cfg l st = some st')
    (hf0 : st.trivial_found = false) (hf1 : st'.trivial_found = false)
    (hb : ∀ c ∈ l, c.1 < cfg.size ∧ c.2 < cfg.size)
    (hok : GuessesOK cfg st.sudoku st.best_guesses) :
    st'.sudoku = st.sudoku ∧ GuessesOK cfg st'.sudoku st'.best_guesses := by
  induction l generalizing st with
  | nil =>
    rw [considerCells_nil] at h
    cases h
    exact ⟨rfl, hok⟩
  | cons c rest ih =>
    cases hcand : candidates cfg st.sudoku c.1 c.2 with
    | nil =>
      rw [considerCells_cons_empty hcand] at h
      simp at h
    | cons g gs =>
      cases gs with
      | nil =>
        rw [considerCells_cons_single hcand] at h
        have := considerCells_flag_mono rest _ _ h rfl
        rw [hf1] at this
        cases this
      | cons g2 gs2 =>
        rw [considerCells_cons_many hcand] at h
        by_cases hlen : (g :: g2 :: gs2).length < st.best_guesses.length
        · rw [if_pos hlen] at h
          have hok2 : GuessesOK cfg st.sudoku ((g :: g2 :: gs2).map some) := by
            intro q hq y x n hsome
            rw [List.mem_map] at hq
            obtain ⟨gc, hgc, rfl⟩ := hq
            obtain rfl := Option.some.inj hsome
            have hm := mem_candidates3 (hcand ▸ hgc :
              (y, x, n) ∈ candidates cfg st.sudoku c.1 c.2)
            obtain ⟨h1, h2, h3, h4, h5⟩ := hm
            subst h1
            subst h2
            have hc := hb c (List.mem_cons_self c rest)
            exact ⟨hc.1, hc.2, h3, h4, h5⟩
          exact ih { st with best_guesses := (g :: g2 :: gs2).map some }
            h hf0 (fun a ha => hb a (List.mem_cons_of_mem _ ha)) hok2
        · rw [if_neg hlen] at h
          exact ih st h hf0 (fun a ha => hb a (List.mem_cons_of_mem _ ha)) hok

theorem guessesOK_replicate (cfg : Config) (s : Sudoku) (n : Nat) :
    GuessesOK cfg s (List.replicate n none) := by
  intro g hg y x m hsome
  rw [List.eq_of_mem_replicate hg] at hsome
  cases hsome

theorem placeTrivialsLoop_ok {cfg : Config} (hp : 0 < cfg.partition_size)
    (fuel : Nat) (st st' : SolverState) (inv : BoardInv cfg st.sudoku)
    (h : placeTrivialsLoop cfg fuel st = some (some st')) :
    BoardInv cfg st'.sudoku ∧ st'.trivial_found = false ∧
      GuessesOK cfg st'.sudoku st'.best_guesses := by
  induction fuel generalizing st with
  | zero => simp [placeTrivialsLoop] at h
  | succ fuel ih =>
    cases hcc : considerEachCell cfg
        { st with best_guesses := List.replicate cfg.size none
                  trivial_found := false } with
    | none =>
      simp only [placeTrivialsLoop, hcc] at h
      simp at h
    | some st1 =>
      simp only [placeTrivialsLoop, hcc] at h
      have inv1 : BoardInv cfg st1.sudoku :=
        considerCells_inv hp (freeCells cfg st.sudoku)
          { st with best_guesses := List.replicate cfg.size none
                    trivial_found := false }
          st1 freeCells_bounds inv hcc
      cases hflag : st1.trivial_found <;> rw [hflag] at h
      · rw [if_neg (by simp)] at h
        obtain rfl : st1 = st' := by
          cases h
          rfl
        have hquiet := considerCells_quiet (freeCells cfg st.sudoku)
          { st with best_guesses := List.replicate cfg.size none
                    trivial_found := false }
          st1 hcc rfl hflag freeCells_bounds
          (guessesOK_replicate cfg _ cfg.size)
        exact ⟨inv1, hflag, hquiet.2⟩
      · rw [if_pos rfl] at h
        exact ih st1 inv1 h

theorem placeTrivials_ok {cfg : Config} (hp : 0 < cfg.partition_size)
    (st st' : SolverState) (inv : BoardInv cfg st.sudoku)
    (h : placeTrivials cfg st = some (some st')) :
    BoardInv cfg st'.sudoku ∧ st'.trivial_found = false ∧
      GuessesOK cfg st'.sudoku st'.best_guesses :=
  placeTrivialsLoop_ok hp _ st st' inv h

/-! ### Soundness of `solve` -/

theorem tryGuesses_success {cfg : Config} (hp : 0 < cfg.partition_size)
    (recur : Sudoku → SolveRes) (s : Sudoku) (gl : List (Option Guess))
    (b : Sudoku) (inv : BoardInv cfg s) (hok : GuessesOK cfg s gl)
    (hrec : ∀ s2 b2, BoardInv cfg s2 → recur s2 = .success b2 →
      BoardInv cfg b2 ∧ b2.placed_numbers = cfg.size ^ 2)
    (h : tryGuesses cfg recur s gl = .success b) :
    BoardInv cfg b ∧ b.placed_numbers = cfg.size ^ 2 := by
  induction gl with
  | nil => simp [tryGuesses] at h
  | cons g rest ih =>
    cases g with
    | none => simp [tryGuesses, makeGuess] at h
    | some gc =>
      obtain ⟨gy, gx, gn⟩ := gc
      have hgc := hok (some (gy, gx, gn)) (List.mem_cons_self _ _) gy gx gn rfl
      have hinv2 : BoardInv cfg ((s.copy).place cfg gy gx gn) := by
        have hcopy : s.copy = s := rfl
        rw [hcopy]
        exact inv.place hp hgc.1 hgc.2.1 hgc.2.2.1 hgc.2.2.2.1 hgc.2.2.2.2
      simp only [tryGuesses, makeGuess] at h
      cases hr : recur ((s.copy).place cfg gy gx gn) <;> rw [hr] at h
      case success b2 =>
        obtain rfl : b2 = b := by
          cases h
          rfl
        exact hrec _ _ hinv2 hr
      case failure m =>
        exact ih (fun q hq => hok q (List.mem_cons_of_mem _ hq)) h
      case crash => cases h
      case outOfFuel => cases h

theorem solve_success_inv {cfg : Config} (hp : 0 < cfg.partition_size)
    (fuel : Nat) (s b : Sudoku) (inv : BoardInv cfg s)
    (h : solve cfg fuel s = .success b) :
    BoardInv cfg b ∧ b.placed_numbers = cfg.size ^ 2 := by
  induction fuel generalizing s b with
  | zero => simp [solve] at h
  | succ fuel ih =>
    cases hpt : placeTrivials cfg ⟨s, [], true⟩ with
    | none =>
      simp only [solve, hpt] at h
      simp at h
    | some o =>
      cases o with
      | none =>
        simp only [solve, hpt] at h
        simp at h
      | some st =>
        simp only [solve, hpt] at h
        obtain ⟨inv1, hflag, hok⟩ := placeTrivials_ok hp _ _ inv hpt
        by_cases hsolved : st.sudoku.isSolved cfg = true
        · rw [if_pos hsolved] at h
          obtain rfl : st.sudoku = b := by
            cases h
            rfl
          exact ⟨inv1, beq_iff_eq.mp hsolved⟩
        · rw [if_neg hsolved] at h
          exact tryGuesses_success hp _ _ _ _ inv1 hok
            (fun s2 b2 i2 h2 => ih s2 b2 i2 h2) h

/-! ### From the invariant to full validity -/

/-- The values of row `y` of the displayed board. -/
def rowValues (cfg : Config) (b : Sudoku) (y : Nat) : List Nat :=
  (List.range cfg.size).map fun x => b.displayable y x

/-- The values of column `x` of the displayed board. -/
def colValues (cfg : Config) (b : Sudoku) (x : Nat) : List Nat :=
  (List.range cfg.size).map fun y => b.displayable y x

/-- The values of the block with block coordinates `(br, bc)`. -/
def blockValues (cfg : Config) (b : Sudoku) (br bc : Nat) : List Nat :=
  (List.range cfg.size).map fun k =>
    b.displayable (br * cfg.partition_size + k / cfg.partition_size)
      (bc * cfg.partition_size + k % cfg.partition_size)

/-- Full correctness of a board: every cell holds a value in `1..N`, and
every row, every column, and every block contains each value `1..N`
exactly once. -/
def ValidBoard (cfg : Config) (b : Sudoku) : Prop :=
  (∀ y x, y < cfg.size → x < cfg.size →
    1 ≤ b.displayable y x ∧ b.displayable y x ≤ cfg.size) ∧
  (∀ y v, y < cfg.size → 1 ≤ v → v ≤ cfg.size →
    (rowValues cfg b y).count v = 1) ∧
  (∀ x v, x < cfg.size → 1 ≤ v → v ≤ cfg.size →
    (colValues cfg b x).count v = 1) ∧
  (∀ br bc v, br < cfg.partition_size → bc < cfg.partition_size →
    1 ≤ v → v ≤ cfg.size → (blockValues cfg b br bc).count v = 1)

theorem count_eq_one_of_values {L : List Nat} {N : Nat}
    (hlen : L.length = N) (hnd : L.Nodup)
    (hsub : ∀ a ∈ L, 1 ≤ a ∧ a ≤ N) {v : Nat} (hv1 : 1 ≤ v) (hv2 : v ≤ N) :
    L.count v = 1 := by
  have hsub2 : L ⊆ List.range' 1 N := by
    intro a ha
    rw [List.mem_range']
    obtain ⟨h1, h2⟩ := hsub a ha
    exact ⟨a - 1, by omega, by omega⟩
  have hperm : L.Perm (List.range' 1 N) :=
    (List.subperm_of_subset hnd hsub2).perm_of_length_le
      (by rw [List.length_range', hlen])
  rw [hperm.count_eq]
  apply List.count_eq_one_of_mem (List.nodup_range' 1 N)
  rw [List.mem_range']
  exact ⟨v - 1, by omega, by omega⟩

theorem length_allCells (cfg : Config) :
    (allCells cfg).length = cfg.size ^ 2 := by
  unfold allCells
  rw [List.length_flatMap]
  have h : (List.range cfg.size).map
      (List.length ∘ fun y => (List.range cfg.size).map fun x => (y, x))
      = (List.range cfg.size).map fun _ => cfg.size := by
    apply List.map_congr_left
    intro y _
    simp
  rw [h]
  induction cfg.size with
  | zero => rfl
  | succ n _ =>
    rw [List.range_succ, List.map_append, List.sum_append]
    simp [Nat.pow_two]
    ring

theorem length_filter_eq_all {α : Type} (l : List α) (p : α → Bool)
    (h : (l.filter p).length = l.length) : ∀ a ∈ l, p a = true := by
  induction l with
  | nil => intro a ha; cases ha
  | cons hd tl ih =>
    rw [List.filter_cons] at h
    cases hp : p hd <;> rw [hp] at h
    · simp at h
      have := List.length_filter_le p tl
      omega
    · simp at h
      intro a ha
      rcases List.mem_cons.mp ha with rfl | hmem
      · exact hp
      · exact h a hmem

theorem all_filled {cfg : Config} {b : Sudoku} (inv : BoardInv cfg b)
    (hcount : b.placed_numbers = cfg.size ^ 2) :
    ∀ y x, y < cfg.size → x < cfg.size → b.displayable y x ≠ 0 := by
  have h1 : filledCount cfg b = (allCells cfg).length := by
    rw [← inv.count, hcount, length_allCells]
  have h2 := length_filter_eq_all (allCells cfg)
    (fun c => b.displayable c.1 c.2 != 0) h1
  intro y x hy hx
  have h3 := h2 (y, x) (mem_allCells.mpr ⟨hy, hx⟩)
  simpa using h3

theorem land_numberToBitmask_eq_zero {a n : Nat} (h : a.testBit n = false) :
    a &&& numberToBitmask n = 0 := by
  by_contra hne
  rw [(land_numberToBitmask_ne_zero a n).mp hne] at h
  cases h

theorem freeCells_nil_of_filled {cfg : Config} {b : Sudoku}
    (inv : BoardInv cfg b) (hcount : b.placed_numbers = cfg.size ^ 2) :
    freeCells cfg b = [] := by
  rw [freeCells, List.filter_eq_nil_iff]
  intro c hc
  have hb := mem_allCells.mp hc
  have hfill := all_filled inv hcount c.1 c.2 hb.1 hb.2
  have hfree : (b.placability c.1 c.2).testBit 0 = false := by
    cases hbit : (b.placability c.1 c.2).testBit 0
    · rfl
    · exact absurd ((inv.free_iff c.1 c.2 hb.1 hb.2).mp hbit) hfill
  have hz : b.placability c.1 c.2 &&& cellFreeBit = 0 :=
    land_numberToBitmask_eq_zero hfree
  simp [hz]

theorem block_cell_row_lt {p size br k : Nat} (hp : 0 < p)
    (hpp : p * p = size) (hbr : br < p) (hk : k < size) :
    br * p + k / p < size := by
  have hdiv : k / p < p := by
    rw [Nat.div_lt_iff_lt_mul hp]
    omega
  calc br * p + k / p < br * p + p := by omega
    _ = (br + 1) * p := by ring
    _ ≤ p * p := Nat.mul_le_mul_right p (by omega)
    _ = size := hpp

theorem block_quot {p : Nat} (br : Nat) {d : Nat} (hp : 0 < p) (hd : d < p) :
    (br * p + d) / p = br := by
  rw [Nat.mul_comm br p, Nat.mul_add_div hp, Nat.div_eq_of_lt hd, Nat.add_zero]

theorem validBoard_of_inv {cfg : Config} (hp : 0 < cfg.partition_size)
    (hpp : cfg.partition_size * cfg.partition_size = cfg.size)
    {b : Sudoku} (inv : BoardInv cfg b)
    (hcount : b.placed_numbers = cfg.size ^ 2) : ValidBoard cfg b := by
  have hfill := all_filled inv hcount
  have hrange : ∀ y x, y < cfg.size → x < cfg.size →
      1 ≤ b.displayable y x ∧ b.displayable y x ≤ cfg.size := fun y x hy hx =>
    (inv.range y x hy hx).resolve_left (hfill y x hy hx)
  refine ⟨hrange, ?_, ?_, ?_⟩
  · intro y v hy hv1 hv2
    apply count_eq_one_of_values ?_ ?_ ?_ hv1 hv2
    · rw [rowValues, List.length_map, List.length_range]
    · apply List.Nodup.map_on ?_ (List.nodup_range _)
      intro x1 hx1 x2 hx2 heq
      by_contra hne
      exact inv.distinct y x1 y x2 hy (List.mem_range.mp hx1) hy
        (List.mem_range.mp hx2) (elimRegion_row cfg y x1 x2)
        (fun hpair => hne (congrArg Prod.snd hpair))
        (hfill y x1 hy (List.mem_range.mp hx1)) heq
    · intro a ha
      rw [rowValues, List.mem_map] at ha
      obtain ⟨x, hx, rfl⟩ := ha
      exact hrange y x hy (List.mem_range.mp hx)
  · intro x v hx hv1 hv2
    apply count_eq_one_of_values ?_ ?_ ?_ hv1 hv2
    · rw [colValues, List.length_map, List.length_range]
    · apply List.Nodup.map_on ?_ (List.nodup_range _)
      intro y1 hy1 y2 hy2 heq
      by_contra hne
      exact inv.distinct y1 x y2 x (List.mem_range.mp hy1) hx
        (List.mem_range.mp hy2) hx (elimRegion_col cfg y1 x y2)
        (fun hpair => hne (congrArg Prod.fst hpair))
        (hfill y1 x (List.mem_range.mp hy1) hx) heq
    · intro a ha
      rw [colValues, List.mem_map] at ha
      obtain ⟨y, hy, rfl⟩ := ha
      exact hrange y x (List.mem_range.mp hy) hx
  · intro br bc v hbr hbc hv1 hv2
    have hcell : ∀ k, k < cfg.size →
        br * cfg.partition_size + k / cfg.partition_size < cfg.size ∧
          bc * cfg.partition_size + k % cfg.partition_size < cfg.size := by
      intro k hk
      refine ⟨block_cell_row_lt hp hpp hbr hk, ?_⟩
      have hmod : k % cfg.partition_size < cfg.partition_size := Nat.mod_lt k hp
      calc bc * cfg.partition_size + k % cfg.partition_size
          < bc * cfg.partition_size + cfg.partition_size := by omega
        _ = (bc + 1) * cfg.partition_size := by ring
        _ ≤ cfg.partition_size * cfg.partition_size :=
            Nat.mul_le_mul_right _ (by omega)
        _ = cfg.size := hpp
    apply count_eq_one_of_values ?_ ?_ ?_ hv1 hv2
    · rw [blockValues, List.length_map, List.length_range]
    · apply List.Nodup.map_on ?_ (List.nodup_range _)
      intro k1 hk1 k2 hk2 heq
      have hk1s := List.mem_range.mp hk1
      have hk2s := List.mem_range.mp hk2
      have hdiv1 : k1 / cfg.partition_size < cfg.partition_size := by
        rw [Nat.div_lt_iff_lt_mul hp]
        omega
      have hdiv2 : k2 / cfg.partition_size < cfg.partition_size := by
        rw [Nat.div_lt_iff_lt_mul hp]
        omega
      have hmod1 : k1 % cfg.partition_size < cfg.partition_size :=
        Nat.mod_lt k1 hp
      have hmod2 : k2 % cfg.partition_size < cfg.partition_size :=
        Nat.mod_lt k2 hp
      by_cases hsame :
          br * cfg.partition_size + k1 / cfg.partition_size =
            br * cfg.partition_size + k2 / cfg.partition_size
          ∧ bc * cfg.partition_size + k1 % cfg.partition_size =
            bc * cfg.partition_size + k2 % cfg.partition_size
      · have hdd : k1 / cfg.partition_size = k2 / cfg.partition_size := by omega
        have hmm : k1 % cfg.partition_size = k2 % cfg.partition_size := by omega
        have hd := Nat.div_add_mod k1 cfg.partition_size
        have hd2 := Nat.div_add_mod k2 cfg.partition_size
        rw [hdd, hmm] at hd
        omega
      · exfalso
        have hq1 := block_quot br hp hdiv1
        have hq2 := block_quot bc hp hmod1
        have hreg : ElimRegion cfg
            (br * cfg.partition_size + k1 / cfg.partition_size)
            (bc * cfg.partition_size + k1 % cfg.partition_size)
            (br * cfg.partition_size + k2 / cfg.partition_size)
            (bc * cfg.partition_size + k2 % cfg.partition_size) := by
          right
          right
          rw [hq1, hq2]
          exact ⟨Nat.le_add_right _ _, Nat.add_lt_add_left hdiv2 _,
            Nat.le_add_right _ _, Nat.add_lt_add_left hmod2 _⟩
        have hc1 := hcell k1 hk1s
        have hc2 := hcell k2 hk2s
        exact inv.distinct _ _ _ _ hc1.1 hc1.2 hc2.1 hc2.2 hreg
          (fun hpair => hsame ⟨congrArg Prod.fst hpair, congrArg Prod.snd hpair⟩)
          (hfill _ _ hc1.1 hc1.2) heq
    · intro a ha
      rw [blockValues, List.mem_map] at ha
      obtain ⟨k, hk, rfl⟩ := ha
      have hc := hcell k (List.mem_range.mp hk)
      exact hrange _ _ hc.1 hc.2

/-! ### Contradiction detection -/

theorem placeTrivialsLoop_succ (cfg : Config) (fuel : Nat) (st : SolverState) :
    placeTrivialsLoop cfg (fuel + 1) st =
      match considerEachCell cfg
          { st with best_guesses := List.replicate cfg.size none
                    trivial_found := false } with
      | none => some none
      | some st1 =>
        if st1.trivial_found then placeTrivialsLoop cfg fuel st1
        else some (some st1) := rfl

theorem considerCells_none_of_empty {cfg : Config} (l : List (Nat × Nat))
    (st : SolverState) (c : Nat × Nat) (hc : c ∈ l)
    (hempty : candidates cfg st.sudoku c.1 c.2 = []) :
    considerCells cfg l st = none := by
  induction l generalizing st with
  | nil => cases hc
  | cons hd rest ih =>
    rcases List.mem_cons.mp hc with rfl | hmem
    · exact considerCells_cons_empty hempty
    · cases hcand : candidates cfg st.sudoku hd.1 hd.2 with
      | nil => exact considerCells_cons_empty hcand
      | cons g gs =>
        cases gs with
        | nil =>
          rw [considerCells_cons_single hcand]
          exact ih _ hmem (candidates_empty_place hempty)
        | cons g2 gs2 =>
          rw [considerCells_cons_many hcand]
          by_cases hlen : (g :: g2 :: gs2).length < st.best_guesses.length
          · rw [if_pos hlen]
            exact ih { st with best_guesses := (g :: g2 :: gs2).map some }
              hmem hempty
          · rw [if_neg hlen]
            exact ih st hmem hempty

/-- C2: a free cell without any placeable value makes `solve` return the
plain failure value of `sudoku_solver.py` line 69, for every recursion
fuel — a terminating ordinary result, not an exception. -/
theorem propagation_contradiction (s : Sudoku) (y x fuel : Nat)
    (hfree : (y, x) ∈ freeCells cfg9 s)
    (hempty : ∀ n ∈ List.range' 1 cfg9.size, s.canPlace cfg9 y x n = false) :
    solve cfg9 (fuel + 1) s = .failure "the sudoku could not be solved" := by
  have hcand : candidates cfg9 s y x = [] := by
    rw [candidates, List.filterMap_eq_nil_iff]
    intro n hn
    rw [hempty n hn]
    simp
  have hcc : considerEachCell cfg9
      ⟨s, List.replicate cfg9.size none, false⟩ = none :=
    considerCells_none_of_empty (freeCells cfg9 s)
      ⟨s, List.replicate cfg9.size none, false⟩ (y, x) hfree hcand
  have hpt : placeTrivials cfg9 ⟨s, [], true⟩ = some none := by
    show placeTrivialsLoop cfg9 (cfg9.size * cfg9.size + 1) ⟨s, [], true⟩
      = some none
    rw [show cfg9.size * cfg9.size + 1 = 81 + 1 from rfl,
      placeTrivialsLoop_succ, hcc]
  simp only [solve, hpt]

/-- C1: any board that `solve` reports as a success, starting from a
solver built from a 2-d input grid, is completely filled and every row,
column and block of it holds each value `1..9` exactly once. -/
theorem solve_success_valid (g : List (List Nat)) (s b : Sudoku) (fuel : Nat)
    (hbuild : buildSolver g = .ok s)
    (hsolve : solve cfg9 fuel s = .success b) : ValidBoard cfg9 b := by
  have inv := buildSolver_inv hbuild
  obtain ⟨invb, hcnt⟩ := solve_success_inv (by decide) fuel s b inv hsolve
  exact validBoard_of_inv (by decide) (by decide) invb hcnt

/-- C8: a solver built from a grid whose construction already placed all
`size ** 2` numbers returns `(True, <the very same board>)`. -/
theorem solve_idempotent (g : List (List Nat)) (s : Sudoku) (fuel : Nat)
    (hbuild : buildSolver g = .ok s)
    (hsolved : s.placed_numbers = cfg9.size ^ 2) :
    solve cfg9 (fuel + 1) s = .success s := by
  have inv := buildSolver_inv hbuild
  have hfree : freeCells cfg9 s = [] := freeCells_nil_of_filled inv hsolved
  have hcc : considerEachCell cfg9
      ⟨s, List.replicate cfg9.size none, false⟩
      = some ⟨s, List.replicate cfg9.size none, false⟩ := by
    show considerCells cfg9 (freeCells cfg9 s)
      ⟨s, List.replicate cfg9.size none, false⟩ = _
    rw [hfree]
    rfl
  have hpt : placeTrivials cfg9 ⟨s, [], true⟩
      = some (some ⟨s, List.replicate cfg9.size none, false⟩) := by
    show placeTrivialsLoop cfg9 (cfg9.size * cfg9.size + 1) ⟨s, [], true⟩ = _
    rw [show cfg9.size * cfg9.size + 1 = 81 + 1 from rfl,
      placeTrivialsLoop_succ, hcc]
    rfl
  have hsl : (Sudoku.isSolved cfg9 s) = true := beq_iff_eq.mpr hsolved
  simp only [solve, hpt]
  rw [if_pos hsl]

/-! ### Claim-level facts: masks, place, unplace, branching -/

/-- C3, counterexample to the claim as stated: the claim asserts that the
free bit of the cell itself is among the set bits of
`eliminationMask[cell][v]`; at cell `(0, 0)` with `v = 1`, the mask's
word at `(0, 0)` does not have bit 0 (the free bit) set — `place` clears
the free bit separately (`sudoku.py` line 54), it is not in the mask. -/
theorem availMask_no_freeBit :
    ¬ ((availMaskEntry cfg9 0 0 1 0 0).testBit 0 = true) := by decide

/-- C3, amended: the set bits of `availability_masks[y][x][v]` at
position `(i, j)` are exactly the value bit of `v`, present exactly on
the cells sharing the row, the column, or the block of `(y, x)` (the
cell itself included); no free bit is in the mask. -/
theorem availMask_bits (cfg : Config) (hp : 0 < cfg.partition_size)
    (y x v i j k : Nat) (hv1 : 1 ≤ v) (hv2 : v ≤ cfg.size) :
    (availMaskEntry cfg y x v i j).testBit k = true ↔
      ((i = y ∨ j = x ∨
        (i / cfg.partition_size = y / cfg.partition_size ∧
          j / cfg.partition_size = x / cfg.partition_size)) ∧ k = v) := by
  unfold availMaskEntry
  rw [← elimRegion_iff cfg hp]
  by_cases hr : ElimRegion cfg y x i j
  · rw [if_pos hr, testBit_numberToBitmask]
    simp [hr, eq_comm]
  · rw [if_neg hr, Nat.zero_testBit]
    simp [hr]

theorem availMask_bits_witness :
    0 < cfg9.partition_size ∧ 1 ≤ 1 ∧ 1 ≤ cfg9.size ∧
      ((availMaskEntry cfg9 0 0 1 0 1).testBit 1 = true ↔
        ((0 = 0 ∨ 1 = 0 ∨
          (0 / cfg9.partition_size = 0 / cfg9.partition_size ∧
            1 / cfg9.partition_size = 0 / cfg9.partition_size)) ∧ 1 = 1)) :=
  ⟨by decide, by decide, by decide,
    availMask_bits cfg9 (by decide) 0 0 1 0 1 1 (by decide) (by decide)⟩

/-- C9: a `place` call can only clear availability bits — every bit set
afterwards was set before — and it increments `placed_numbers` by exactly
one.  No hypothesis restricts the board, the cell or the value. -/
theorem place_monotone_count (cfg : Config) (s : Sudoku) (y x n i j k : Nat)
    (h : ((s.place cfg y x n).placability i j).testBit k = true) :
    (s.placability i j).testBit k = true ∧
      (s.place cfg y x n).placed_numbers = s.placed_numbers + 1 :=
  ⟨place_testBit_mono h, rfl⟩

theorem place_monotone_count_witness :
    (((Sudoku.init cfg9).place cfg9 0 0 1).placability 0 5).testBit 2 = true ∧
      ((Sudoku.init cfg9).placability 0 5).testBit 2 = true ∧
      ((Sudoku.init cfg9).place cfg9 0 0 1).placed_numbers =
        (Sudoku.init cfg9).placed_numbers + 1 :=
  ⟨by decide,
    (place_monotone_count cfg9 (Sudoku.init cfg9) 0 0 1 0 5 2 (by decide)).1,
    (place_monotone_count cfg9 (Sudoku.init cfg9) 0 0 1 0 5 2 (by decide)).2⟩

/-- The board placed through construction on the occupied-cell example. -/
def s1place : Sudoku := (Sudoku.init cfg9).place cfg9 0 0 1

/-- C5 (code bug): `unplace` on the occupied cell `(0, 0)` returns
without restoring anything (count still 1, value still displayed), and
`unplace` on a free cell falls into the branch that reads the misspelled
attribute and raises — the exact opposite of the claimed behaviour. -/
theorem unplace_swapped_guard :
    Sudoku.unplace cfg9 s1place 0 0 1 = some s1place ∧
      s1place.placed_numbers = 1 ∧
      s1place.displayable 0 0 = 1 ∧
      Sudoku.unplace cfg9 (Sudoku.init cfg9) 0 0 1 = none :=
  ⟨rfl, rfl, rfl, rfl⟩

/-- The all-zero 9×9 input grid. -/
def zeroGrid : List (List Nat) := List.replicate 9 (List.replicate 9 0)

/-- The (empty) board its construction produces. -/
def sEmpty : Sudoku :=
  match buildSolver zeroGrid with
  | .ok s => s
  | .error _ => Sudoku.init cfg9

/-- C4 (code bug): on the all-empty board, propagation converges with
`best_guesses` still equal to its `[None] * 9` initialisation (every free
cell has all 9 candidates and `9 < 9` fails at line 158), the board is
not solved, and Phase 2 then executes `place(*None)` — a `TypeError`
escapes (`crash`) instead of the documented result tuple. -/
theorem phase2_placeholder_crash :
    buildSolver zeroGrid = .ok sEmpty ∧
      (match placeTrivials cfg9 ⟨sEmpty, [], true⟩ with
        | some (some st) => st.best_guesses
        | _ => []) = List.replicate 9 none ∧
      solve cfg9 2 sEmpty = .crash :=
  ⟨rfl, rfl, rfl⟩

/-! ### Configuration validation -/

theorem validateParameters_spec (size : Nat) (psize : Option Nat) :
    ((∃ e, validateParameters size psize = .error e) ↔
      (100 < size ∨ Nat.sqrt size * Nat.sqrt size ≠ size ∨
        (∃ p, psize = some p ∧ p ≠ Nat.sqrt size))) ∧
    (¬ (100 < size ∨ Nat.sqrt size * Nat.sqrt size ≠ size ∨
        (∃ p, psize = some p ∧ p ≠ Nat.sqrt size)) →
      validateParameters size psize = .ok (size, Nat.sqrt size)) := by
  unfold validateParameters
  by_cases h1 : size > 10 ^ 2
  · rw [if_pos h1]
    refine ⟨⟨fun _ => Or.inl (by omega), fun _ => ⟨_, rfl⟩⟩, fun hc => ?_⟩
    exact absurd (Or.inl (by omega)) hc
  · rw [if_neg h1]
    by_cases h2 : ¬ (Nat.sqrt size * Nat.sqrt size = size)
    · rw [if_pos h2]
      refine ⟨⟨fun _ => Or.inr (Or.inl h2), fun _ => ⟨_, rfl⟩⟩, fun hc => ?_⟩
      exact absurd (Or.inr (Or.inl h2)) hc
    · rw [if_neg h2]
      rw [not_not] at h2
      cases psize with
      | none =>
        simp only [Option.getD_none]
        rw [if_neg (by simp)]
        constructor
        · constructor
          · rintro ⟨e, he⟩
            cases he
          · rintro (h | h | ⟨p, hp, _⟩)
            · omega
            · exact absurd h2 h
            · cases hp
        · intro _
          rfl
      | some p =>
        simp only [Option.getD_some]
        by_cases h3 : p ≠ Nat.sqrt size
        · rw [if_pos h3]
          refine ⟨⟨fun _ => Or.inr (Or.inr ⟨p, rfl, h3⟩), fun _ => ⟨_, rfl⟩⟩,
            fun hc => ?_⟩
          exact absurd (Or.inr (Or.inr ⟨p, rfl, h3⟩)) hc
        · rw [if_neg h3]
          rw [not_not] at h3
          constructor
          · constructor
            · rintro ⟨e, he⟩
              cases he
            · rintro (h | h | ⟨q, hq, hq2⟩)
              · omega
              · exact absurd h2 h
              · cases hq
                exact absurd h3 hq2
          · intro _
            rw [h3]

/-- C6: `Configuration` construction on integer arguments fails (raising,
with no object produced) exactly when the size exceeds 100, the size is
not a perfect square, or an explicitly supplied partition size differs
from `√size`; otherwise it succeeds with the validated fields. -/
theorem configuration_build_spec (size : Nat) (psize : Option Nat) :
    ((∃ e, buildConfiguration size psize = .error e) ↔
      (100 < size ∨ Nat.sqrt size * Nat.sqrt size ≠ size ∨
        (∃ p, psize = some p ∧ p ≠ Nat.sqrt size))) ∧
    (¬ (100 < size ∨ Nat.sqrt size * Nat.sqrt size ≠ size ∨
        (∃ p, psize = some p ∧ p ≠ Nat.sqrt size)) →
      buildConfiguration size psize = .ok ⟨size, Nat.sqrt size⟩) := by
  have h := validateParameters_spec size psize
  unfold buildConfiguration
  constructor
  · rw [← h.1]
    constructor
    · rintro ⟨e, he⟩
      cases hv : validateParameters size psize with
      | error e2 => exact ⟨e2, rfl⟩
      | ok v =>
        rw [hv] at he
        cases he
    · rintro ⟨e, he⟩
      rw [he]
      exact ⟨e, rfl⟩
  · intro hc
    rw [h.2 hc]
    rfl

/-! ### Conflicting clues fail construction -/

theorem placeClues_error_form {cfg : Config} (material : List (List Nat)) :
    ∀ (l : List Guess) (s : Sudoku) (e : BuildError),
      placeClues cfg material l s = .error e → e = .invalidPuzzle material := by
  intro l
  induction l with
  | nil =>
    intro s e h
    cases h
  | cons c rest ih =>
    intro s e h
    unfold placeClues at h
    by_cases hnine : c.2.2 ∈ ([1, 2, 3, 4, 5, 6, 7, 8, 9] : List Nat)
    · rw [if_pos hnine] at h
      cases hcp : s.canPlace cfg c.1 c.2.1 c.2.2 <;> rw [hcp] at h
      · rw [if_neg (by simp)] at h
        exact (Except.error.inj h).symm
      · rw [if_pos rfl] at h
        exact ih _ e h
    · rw [if_neg hnine] at h
      exact ih _ e h

theorem placeClues_preserves_value {cfg : Config} (material : List (List Nat)) :
    ∀ (l : List Guess) (s s' : Sudoku) (y x v : Nat),
      s.displayable y x = v → v ≠ 0 →
      (s.placability y x).testBit 0 = false →
      placeClues cfg material l s = .ok s' → s'.displayable y x = v := by
  intro l
  induction l with
  | nil =>
    intro s s' y x v hd _ _ h
    cases h
    exact hd
  | cons c rest ih =>
    intro s s' y x v hd hv hbit h
    unfold placeClues at h
    by_cases hnine : c.2.2 ∈ ([1, 2, 3, 4, 5, 6, 7, 8, 9] : List Nat)
    · rw [if_pos hnine] at h
      cases hcp : s.canPlace cfg c.1 c.2.1 c.2.2 <;> rw [hcp] at h
      · rw [if_neg (by simp)] at h
        cases h
      · rw [if_pos rfl] at h
        have hne : ¬ (y = c.1 ∧ x = c.2.1) := by
          rintro ⟨rfl, rfl⟩
          have hcm := (canPlace_iff cfg s c.1 c.2.1 c.2.2).mp hcp
          rw [hcm.2] at hbit
          cases hbit
        have hnn := mem_nine_range hnine
        refine ih _ s' y x v ?_ hv ?_ h
        · rw [place_displayable, if_neg hne]
          exact hd
        · rw [place_preserves_testBit (Or.inr (by omega)) (Or.inl hne)]
          exact hbit
    · rw [if_neg hnine] at h
      exact ih _ s' y x v hd hv hbit h

theorem placeClues_ok_clue_value {cfg : Config} (material : List (List Nat)) :
    ∀ (l : List Guess) (s s' : Sudoku) (y x v : Nat),
      (y, x, v) ∈ l → v ∈ ([1, 2, 3, 4, 5, 6, 7, 8, 9] : List Nat) →
      placeClues cfg material l s = .ok s' → s'.displayable y x = v := by
  intro l
  induction l with
  | nil =>
    intro s s' y x v hm
    cases hm
  | cons c rest ih =>
    intro s s' y x v hm hnine h
    unfold placeClues at h
    rcases List.mem_cons.mp hm with heq | hmem
    · obtain rfl := heq.symm
      rw [if_pos hnine] at h
      cases hcp : s.canPlace cfg y x v <;> rw [hcp] at h
      · rw [if_neg (by simp)] at h
        cases h
      · rw [if_pos rfl] at h
        have hnn := mem_nine_range hnine
        refine placeClues_preserves_value material rest _ s' y x v ?_ (by omega)
          ?_ h
        · rw [place_displayable, if_pos ⟨rfl, rfl⟩]
        · exact place_clears_free cfg s y x v
    · by_cases hnine2 : c.2.2 ∈ ([1, 2, 3, 4, 5, 6, 7, 8, 9] : List Nat)
      · rw [if_pos hnine2] at h
        cases hcp : s.canPlace cfg c.1 c.2.1 c.2.2 <;> rw [hcp] at h
        · rw [if_neg (by simp)] at h
          cases h
        · rw [if_pos rfl] at h
          exact ih _ s' y x v hmem hnine h
      · rw [if_neg hnine2] at h
        exact ih _ s' y x v hmem hnine h

/-- The integer entry of the input grid at `(y, x)`. -/
def gridEntry (g : List (List Nat)) (y x : Nat) : Nat :=
  (g.getD y []).getD x 0

theorem gridEntry_mem_clueList {g : List (List Nat)} {y x : Nat}
    (hshape : verifyInputShape cfg9 g = true)
    (hy : y < cfg9.size) (hx : x < cfg9.size) :
    (y, x, gridEntry g y x) ∈ clueList g := by
  obtain ⟨hlen, hall⟩ := verifyInputShape_eq hshape
  have hy2 : y < g.length := by
    rw [hlen]
    exact hy
  have hrow : g[y] ∈ g := List.getElem_mem hy2
  have hx2 : x < g[y].length := by
    rw [hall g[y] hrow]
    exact hx
  unfold clueList
  rw [List.mem_flatMap]
  refine ⟨(y, g[y]), enum_mem_of_lt hy2, ?_⟩
  rw [List.mem_map]
  refine ⟨(x, g[y][x]), enum_mem_of_lt hx2, ?_⟩
  unfold gridEntry
  rw [List.getD_eq_getElem g [] hy2, List.getD_eq_getElem _ 0 hx2]

/-- Supporting corollary: when two cells of the same row of the input
carry the same clue value, construction fails and raises the
`AttributeError` whose payload is the input material
(`sudoku_solver.py` line 31). -/
theorem build_conflict_fails (g : List (List Nat)) (y x1 x2 v : Nat)
    (hshape : verifyInputShape cfg9 g = true)
    (hy : y < cfg9.size) (hx1 : x1 < cfg9.size) (hx2 : x2 < cfg9.size)
    (hne : x1 ≠ x2) (hv : v ∈ ([1, 2, 3, 4, 5, 6, 7, 8, 9] : List Nat))
    (h1 : gridEntry g y x1 = v) (h2 : gridEntry g y x2 = v) :
    buildSolver g = .error (.invalidPuzzle g) := by
  have hc1 : (y, x1, v) ∈ clueList g := h1 ▸ gridEntry_mem_clueList hshape hy hx1
  have hc2 : (y, x2, v) ∈ clueList g := h2 ▸ gridEntry_mem_clueList hshape hy hx2
  cases hb : buildSolver g with
  | ok s =>
    exfalso
    have inv := buildSolver_inv hb
    have hb2 := hb
    unfold buildSolver at hb2
    rw [if_pos (by rw [hshape])] at hb2
    have hd1 := placeClues_ok_clue_value g (clueList g) _ s y x1 v hc1 hv hb2
    have hd2 := placeClues_ok_clue_value g (clueList g) _ s y x2 v hc2 hv hb2
    have hnn := mem_nine_range hv
    have hdist := inv.distinct y x1 y x2 hy hx1 hy hx2
      (elimRegion_row cfg9 y x1 x2)
      (fun hpair => hne (congrArg Prod.snd hpair))
      (by rw [hd1]; omega)
    rw [hd1, hd2] at hdist
    exact hdist rfl
  | error e =>
    have hb2 := hb
    unfold buildSolver at hb2
    rw [if_pos (by rw [hshape])] at hb2
    rw [placeClues_error_form g (clueList g) _ e hb2]

/-! ### Concrete boards used as witnesses -/

/-- A complete valid 9×9 grid (rows are shifts of `1..9`). -/
def gFull : List (List Nat) :=
  [[1, 2, 3, 4, 5, 6, 7, 8, 9],
   [4, 5, 6, 7, 8, 9, 1, 2, 3],
   [7, 8, 9, 1, 2, 3, 4, 5, 6],
   [2, 3, 4, 5, 6, 7, 8, 9, 1],
   [5, 6, 7, 8, 9, 1, 2, 3, 4],
   [8, 9, 1, 2, 3, 4, 5, 6, 7],
   [3, 4, 5, 6, 7, 8, 9, 1, 2],
   [6, 7, 8, 9, 1, 2, 3, 4, 5],
   [9, 1, 2, 3, 4, 5, 6, 7, 8]]

/-- `gFull` with the last cell blanked: one forced move from solved. -/
def g80 : List (List Nat) :=
  [[1, 2, 3, 4, 5, 6, 7, 8, 9],
   [4, 5, 6, 7, 8, 9, 1, 2, 3],
   [7, 8, 9, 1, 2, 3, 4, 5, 6],
   [2, 3, 4, 5, 6, 7, 8, 9, 1],
   [5, 6, 7, 8, 9, 1, 2, 3, 4],
   [8, 9, 1, 2, 3, 4, 5, 6, 7],
   [3, 4, 5, 6, 7, 8, 9, 1, 2],
   [6, 7, 8, 9, 1, 2, 3, 4, 5],
   [9, 1, 2, 3, 4, 5, 6, 7, 0]]

/-- A grid whose clues leave cell `(0, 0)` without any candidate:
`1..8` fill the rest of row 0 and `9` sits below in column 0. -/
def gBad : List (List Nat) :=
  [[0, 1, 2, 3, 4, 5, 6, 7, 8],
   [9, 0, 0, 0, 0, 0, 0, 0, 0],
   [0, 0, 0, 0, 0, 0, 0, 0, 0],
   [0, 0, 0, 0, 0, 0, 0, 0, 0],
   [0, 0, 0, 0, 0, 0, 0, 0, 0],
   [0, 0, 0, 0, 0, 0, 0, 0, 0],
   [0, 0, 0, 0, 0, 0, 0, 0, 0],
   [0, 0, 0, 0, 0, 0, 0, 0, 0],
   [0, 0, 0, 0, 0, 0, 0, 0, 0]]

/-- A grid with the clue `5` twice in row 0. -/
def gDup : List (List Nat) :=
  [[5, 0, 0, 0, 0, 0, 0, 0, 5],
   [0, 0, 0, 0, 0, 0, 0, 0, 0],
   [0, 0, 0, 0, 0, 0, 0, 0, 0],
   [0, 0, 0, 0, 0, 0, 0, 0, 0],
   [0, 0, 0, 0, 0, 0, 0, 0, 0],
   [0, 0, 0, 0, 0, 0, 0, 0, 0],
   [0, 0, 0, 0, 0, 0, 0, 0, 0],
   [0, 0, 0, 0, 0, 0, 0, 0, 0],
   [0, 0, 0, 0, 0, 0, 0, 0, 0]]

/-- The board built from `gFull` (completely placed). -/
def sFull : Sudoku :=
  match buildSolver gFull with
  | .ok s => s
  | .error _ => Sudoku.init cfg9

/-- The board built from `g80`. -/
def s80 : Sudoku :=
  match buildSolver g80 with
  | .ok s => s
  | .error _ => Sudoku.init cfg9

/-- The board `solve` returns on `s80`. -/
def b80 : Sudoku :=
  match solve cfg9 82 s80 with
  | .success b => b
  | _ => Sudoku.init cfg9

/-- The board built from `gBad`. -/
def sBad : Sudoku :=
  match buildSolver gBad with
  | .ok s => s
  | .error _ => Sudoku.init cfg9

set_option maxRecDepth 10000 in
theorem solve_success_valid_witness :
    buildSolver g80 = .ok s80 ∧ solve cfg9 82 s80 = .success b80 ∧
      ValidBoard cfg9 b80 :=
  ⟨rfl, rfl, solve_success_valid g80 s80 b80 82 rfl rfl⟩

set_option maxRecDepth 10000 in
theorem solve_idempotent_witness :
    buildSolver gFull = .ok sFull ∧ sFull.placed_numbers = cfg9.size ^ 2 ∧
      solve cfg9 82 sFull = .success sFull :=
  ⟨rfl, rfl, solve_idempotent gFull sFull 81 rfl rfl⟩

set_option maxRecDepth 10000 in
theorem propagation_contradiction_witness :
    (0, 0) ∈ freeCells cfg9 sBad ∧
      (∀ n ∈ List.range' 1 cfg9.size, sBad.canPlace cfg9 0 0 n = false) ∧
      solve cfg9 82 sBad = .failure "the sudoku could not be solved" :=
  ⟨by decide, by decide,
    propagation_contradiction sBad 0 0 81 (by decide) (by decide)⟩

theorem configuration_build_spec_witness :
    ((∃ e, buildConfiguration 9 none = .error e) ↔
      (100 < 9 ∨ Nat.sqrt 9 * Nat.sqrt 9 ≠ 9 ∨
        (∃ p, (none : Option Nat) = some p ∧ p ≠ Nat.sqrt 9))) ∧
    (¬ (100 < 9 ∨ Nat.sqrt 9 * Nat.sqrt 9 ≠ 9 ∨
        (∃ p, (none : Option Nat) = some p ∧ p ≠ Nat.sqrt 9)) →
      buildConfiguration 9 none = .ok ⟨9, Nat.sqrt 9⟩) :=
  configuration_build_spec 9 none

/-! ### What the construction error does and does not carry -/

/-- "Some clue has `canPlace` false at its turn": scanning the clue
triples in order from board `s` — skipping entries outside the literal
tuple `(1,…,9)` and placing each placeable clue, exactly as the
construction loop does — some in-range clue is reached whose `canPlace`
is `False` (it conflicts with an earlier clue). -/
def cluesConflict (cfg : Config) : List Guess → Sudoku → Bool
  | [], _ => false
  | c :: rest, s =>
    if c.2.2 ∈ ([1, 2, 3, 4, 5, 6, 7, 8, 9] : List Nat) then
      if s.canPlace cfg c.1 c.2.1 c.2.2 then
        cluesConflict cfg rest (s.place cfg c.1 c.2.1 c.2.2)
      else true
    else cluesConflict cfg rest s

theorem placeClues_error_iff {cfg : Config} (material : List (List Nat)) :
    ∀ (l : List Guess) (s : Sudoku),
      (∃ e, placeClues cfg material l s = .error e) ↔
        cluesConflict cfg l s = true := by
  intro l
  induction l with
  | nil =>
    intro s
    constructor
    · rintro ⟨e, he⟩
      cases he
    · intro h
      cases h
  | cons c rest ih =>
    intro s
    unfold placeClues cluesConflict
    by_cases hnine : c.2.2 ∈ ([1, 2, 3, 4, 5, 6, 7, 8, 9] : List Nat)
    · rw [if_pos hnine, if_pos hnine]
      cases hcp : s.canPlace cfg c.1 c.2.1 c.2.2
      · rw [if_neg (by simp), if_neg (by simp)]
        exact ⟨fun _ => rfl, fun _ => ⟨_, rfl⟩⟩
      · rw [if_pos rfl, if_pos rfl]
        exact ih _
    · rw [if_neg hnine, if_neg hnine]
      exact ih _

/-- C7 (amended): on a correct-shape input, every non-empty clue is
applied via `place` only behind a `canPlace` check (definitional in the
construction loop), and construction fails — with the `AttributeError`
of `sudoku_solver.py` line 31, whose payload is the entire input
material and nothing else — exactly when some in-range clue has
`canPlace` false at its turn, i.e. conflicts with an earlier clue. -/
theorem build_conflict_error_iff (g : List (List Nat))
    (hshape : verifyInputShape cfg9 g = true) :
    buildSolver g = .error (.invalidPuzzle g) ↔
      cluesConflict cfg9 (clueList g) (Sudoku.init cfg9) = true := by
  unfold buildSolver
  rw [if_pos (by rw [hshape])]
  constructor
  · intro h
    exact (placeClues_error_iff g (clueList g) (Sudoku.init cfg9)).mp ⟨_, h⟩
  · intro h
    obtain ⟨e, he⟩ :=
      (placeClues_error_iff g (clueList g) (Sudoku.init cfg9)).mpr h
    rw [placeClues_error_form g (clueList g) _ e he] at he
    exact he

theorem build_conflict_error_iff_witness :
    verifyInputShape cfg9 gDup = true ∧
      (buildSolver gDup = .error (.invalidPuzzle gDup) ↔
        cluesConflict cfg9 (clueList gDup) (Sudoku.init cfg9) = true) :=
  ⟨rfl, build_conflict_error_iff gDup rfl⟩

/-- Following the spec's words: the failure the claim describes is an
`InvalidPuzzle` error "identifying the offending cell", i.e. carrying
that cell's coordinates.  No code in the repository builds such a value:
`sudoku_solver.py` line 31 raises an `AttributeError` whose arguments
are a fixed message and the whole input material. -/
inductive SpecBuildError where
  | badShape
  | invalidPuzzle (y x : Nat)
deriving Repr, DecidableEq

/-- The clue-application loop of `SudokuSolver.__init__` re-read with
the error the claim asserts: identical control flow to `placeClues`,
except that the failure names the offending cell.  Used only to exhibit,
at a concrete input, which cell the claimed error would identify. -/
def placeCluesSpec (cfg : Config) :
    List Guess → Sudoku → Except SpecBuildError Sudoku
  | [], s => .ok s
  | c :: rest, s =>
    if c.2.2 ∈ ([1, 2, 3, 4, 5, 6, 7, 8, 9] : List Nat) then
      if s.canPlace cfg c.1 c.2.1 c.2.2 then
        placeCluesSpec cfg rest (s.place cfg c.1 c.2.1 c.2.2)
      else .error (.invalidPuzzle c.1 c.2.1)
    else placeCluesSpec cfg rest s

/-- `SudokuSolver.__init__` under the spec's description of its
failure. -/
def buildSolverSpec (g : List (List Nat)) : Except SpecBuildError Sudoku :=
  if verifyInputShape cfg9 g then
    placeCluesSpec cfg9 (clueList g) (Sudoku.init cfg9)
  else
    .error .badShape

/-- C7, counterexample to the claim as stated, at the concrete
conflicting input `gDup` (clue `5` at both `(0, 0)` and `(0, 8)`): the
offending cell — the first clue whose `canPlace` fails — is `(0, 8)`, as
the spec-worded run shows; but the code's construction fails with the
`AttributeError` of `sudoku_solver.py` line 31, whose payload is the
entire input material `gDup`: no cell coordinates are attached, so the
error does not identify the offending cell. -/
theorem build_conflict_cell_not_identified :
    buildSolverSpec gDup = .error (.invalidPuzzle 0 8) ∧
      buildSolver gDup = .error (.invalidPuzzle gDup) :=
  ⟨rfl, rfl⟩
